import Mathlib

/-!
Verification of the dictionary-encoding column store
(`src/src/dictionary_codec.cpp`, `src/include/dictionary_codec.h`).

The codec state mirrors the private fields of `DictionaryCodec`:
an `std::unordered_map<std::string, uint32_t> dictionary` (modelled as an
association list in insertion order, keys unique by construction),
a `std::vector<std::string> reverse_dictionary`, a
`std::vector<uint32_t> encoded_data` code column (codes as `Nat`, with the
`uint32_t` truncation written explicitly as `% 4294967296` where the source
narrows), and a `std::vector<std::string> original_data`.

Threads of `encodeFile` are embedded as the sequential composition of the
per-range `encodeSingleThread` calls in spawn order, which is a legal
schedule of the source: each worker writes a disjoint column range and all
dictionary accesses are lock-protected, so running each worker to
completion before the next starts is one of the executions the program can
take.  zstd is modelled losslessly: a compressed block remembers the word
sequence it decompresses to, and decompression fails exactly when the frame
content does not fit the destination capacity, which is how
`ZSTD_decompress` reports `dstSize_tooSmall`.
-/

/-- State of a `DictionaryCodec` object: `dictionary`, `reverse_dictionary`,
`encoded_data`, `original_data`. -/
structure CodecState where
  dict : List (String × Nat)
  reverse : List String
  col : List Nat
  orig : List String
  deriving Repr, DecidableEq

/-- A freshly constructed codec: every container empty. -/
def initState : CodecState := ⟨[], [], [], []⟩

/-- Model of `dictionary.find(k)`: first binding of `k` in the association list. -/
def lookupStr : List (String × Nat) → String → Option Nat
  | [], _ => none
  | e :: rest, k => if e.1 = k then some e.2 else lookupStr rest k

/-- Model of `dictionary[k] = v` of `std::unordered_map`: overwrite the existing
binding, or append a new one. -/
def mapInsert (d : List (String × Nat)) (k : String) (v : Nat) :
    List (String × Nat) :=
  if (lookupStr d k).isSome then
    d.map (fun e => if e.1 = k then (k, v) else e)
  else d ++ [(k, v)]

/-- Character loop of repeated `std::getline`: `cur` holds the characters
of the current record in reverse.  A newline terminates a record (the
terminator is stripped); at end of input a nonempty final record is still
emitted, while after a trailing newline `getline` extracts nothing and
fails, producing no extra record. -/
def splitLinesAux (cur : List Char) : List Char → List (List Char)
  | [] => if cur.isEmpty then [] else [cur.reverse]
  | c :: rest =>
    if c = '\n' then cur.reverse :: splitLinesAux [] rest
    else splitLinesAux (c :: cur) rest

/-- The records of an input text, as `std::getline` yields them. -/
def splitLines (cs : List Char) : List (List Char) :=
  splitLinesAux [] cs

/-- The lines of an input file, as strings. -/
def fileLines (content : String) : List String :=
  (splitLines content.data).map (fun cs => String.mk cs)

/-- Model of `DictionaryCodec::encodeSingleThread`, batch flush
(`dictionary_codec.cpp:202-218`): for each pending `(value, row)` re-probe
the dictionary; if still absent assign `uint32_t new_id = dictionary.size()`
(the `size_t` size truncated to 32 bits), append to the forward map and the
reverse vector; in both cases write the code to the column slot. -/
def flushPending (s : CodecState) (pending : List (String × Nat)) :
    CodecState :=
  pending.foldl (fun st pr =>
    match lookupStr st.dict pr.1 with
    | some c => { st with col := st.col.set pr.2 c }
    | none =>
      let newId := st.dict.length % 4294967296
      { st with dict := st.dict ++ [(pr.1, newId)],
                reverse := st.reverse ++ [pr.1],
                col := st.col.set pr.2 newId }) s

/-- The per-value loop of `DictionaryCodec::encodeSingleThread`
(`dictionary_codec.cpp:188-219`).  On a dictionary hit the code is written
and the iteration `continue`s, skipping the flush check; on a miss the
value is buffered and the batch is flushed when it reaches
`BATCH_SIZE = 100` entries or the current value is the last of the chunk
(`i == chunk.size() - 1`, i.e. `rest = []`).  Note the loop can end with a
nonempty pending buffer (when the last iterations are hits), which the
source then discards. -/
def encodeLoop (s : CodecState) (idx : Nat)
    (pending : List (String × Nat)) : List String → CodecState
  | [] => s
  | str :: rest =>
    match lookupStr s.dict str with
    | some c => encodeLoop { s with col := s.col.set idx c } (idx + 1)
        pending rest
    | none =>
      let pending2 := pending ++ [(str, idx)]
      if 100 ≤ pending2.length ∨ rest = [] then
        encodeLoop (flushPending s pending2) (idx + 1) [] rest
      else
        encodeLoop s (idx + 1) pending2 rest

/-- Model of `DictionaryCodec::encodeSingleThread(chunk, start_idx)`. -/
def encodeSingleThread (s : CodecState) (chunk : List String)
    (startIdx : Nat) : CodecState :=
  encodeLoop s startIdx [] chunk

/-- Chunk limit of 10 MB of `encodeFile`. -/
def CHUNK_SIZE : Nat := 10 * 1024 * 1024

/-- Constant `MAX_LINES_PER_CHUNK = CHUNK_SIZE / 16`. -/
def MAX_LINES_PER_CHUNK : Nat := CHUNK_SIZE / 16

/-- The chunk-reading loop of `encodeFile` (`dictionary_codec.cpp:129-136`):
`while (std::getline(file, line) && chunk_size < CHUNK_SIZE)`.  The size
test uses the size accumulated before the current line; when it fails, the
line `getline` has just consumed is neither added to the chunk nor pushed
back, so it is silently dropped.  Returns the chunk and the remaining
lines. -/
def readChunk : List String → Nat → List String →
    (List String × List String)
  | [], _, acc => (acc, [])
  | l :: rest, size, acc =>
    if size < CHUNK_SIZE then
      let acc2 := acc ++ [l]
      if MAX_LINES_PER_CHUNK ≤ acc2.length then (acc2, rest)
      else readChunk rest (size + l.length + 1) acc2
    else (acc, rest)

/-- The thread-partitioning loop of `encodeFile`
(`dictionary_codec.cpp:144-165`): `lines_per_thread = lines / T`;
thread `t` gets the range `[t*lpt, (t+1)*lpt)` of the chunk except that the
last thread absorbs the remainder; each range starts at global row
`chunkStart + t*lpt`.  Workers are run in spawn order (one legal schedule
of the concurrent source). -/
def runThreads (s : CodecState) (chunk : List String)
    (chunkStart T : Nat) : CodecState :=
  (List.range T).foldl (fun st t =>
    let lpt := chunk.length / T
    let start := t * lpt
    let stop := if t = T - 1 then chunk.length else (t + 1) * lpt
    encodeSingleThread st ((chunk.drop start).take (stop - start))
      (chunkStart + start)) s

/-- The outer chunk loop of `encodeFile` (`dictionary_codec.cpp:122-177`):
read a chunk, stop if it is empty, process it with `T` threads, advance
`processed_lines` by the chunk length (a line dropped by `readChunk` is not
counted, shifting every later row).  The loop consumes at least one line
per iteration, so running it with `fuel` initialised to the number of
remaining lines is exactly the `while (!file.eof())` loop. -/
def encodeChunksAux (s : CodecState) (lines : List String) (pos T : Nat) :
    Nat → CodecState
  | 0 => s
  | fuel + 1 =>
    match lines with
    | [] => s
    | l :: rest =>
      let cr := readChunk (l :: rest) 0 []
      if cr.1 = [] then s
      else encodeChunksAux (runThreads s cr.1 pos T) cr.2
        (pos + cr.1.length) T fuel

/-- The chunk loop started on a line stream. -/
def encodeChunks (s : CodecState) (lines : List String) (pos T : Nat) :
    CodecState :=
  encodeChunksAux s lines pos T lines.length

/-- Model of `DictionaryCodec::encodeFile(filename, num_threads)`
(`dictionary_codec.cpp:86-181`): count the lines with a `getline` pre-pass,
`resize` the code column to that count (`std::vector::resize` keeps the
existing prefix and zero-fills any extension), then process the line stream
chunk by chunk. -/
def encodeFile (s : CodecState) (content : String) (T : Nat) : CodecState :=
  let lines := fileLines content
  let total := lines.length
  let s1 := { s with
    col := s.col.take total ++ List.replicate (total - s.col.length) 0 }
  encodeChunks s1 lines 0 T

/-- Model of `DictionaryCodec::baselineFind` (`dictionary_codec.cpp:222-230`):
scan `original_data` and push every index whose string equals the target.
The index argument carries the current position `i`. -/
def scanEq : List String → String → Nat → List Nat
  | [], _, _ => []
  | v :: rest, t, i =>
    if v = t then i :: scanEq rest t (i + 1) else scanEq rest t (i + 1)

/-- Model of `DictionaryCodec::baselineFind(target)`. -/
def baselineFind (s : CodecState) (target : String) : List Nat :=
  scanEq s.orig target 0

/-- One 8-lane AVX2 group at base index `base`: lanes are compared against
the target code in ascending bit order (`_tzcnt_u32` / `mask &= mask - 1`),
and a lane hit is pushed only when `base + lane < n`
(`dictionary_codec.cpp:252-258`, `297-304`).  A lane beyond the column
reads whatever is in memory; since matches there are discarded by the
bounds test, the value read is immaterial and is modelled as `getD _ 0`. -/
def groupHits (col : List Nat) (tid base n : Nat) : List Nat :=
  (List.range 8).filterMap (fun l =>
    if col.getD (base + l) 0 = tid ∧ base + l < n then some (base + l)
    else none)

/-- The scan loop of `DictionaryCodec::findMatches`
(`dictionary_codec.cpp:247-264`): `for (i = 0; i < n; i += 8)` performs
exactly `⌈n/8⌉` iterations with base indices `8g`; there is no scalar
tail. -/
def findMatchesScan (col : List Nat) (tid : Nat) : List Nat :=
  (List.range ((col.length + 7) / 8)).flatMap (fun g =>
    groupHits col tid (8 * g) col.length)

/-- Model of `DictionaryCodec::findMatches(target)` (`dictionary_codec.cpp:232-268`):
translate the target through the dictionary (empty result when absent),
then scan the code column 8 lanes at a time. -/
def findMatches (s : CodecState) (target : String) : List Nat :=
  match lookupStr s.dict target with
  | none => []
  | some tid => findMatchesScan s.col tid

/-- Scalar tail scan: push `i` when the code equals the target
(`dictionary_codec.cpp:309-313`). -/
def scanTail : List Nat → Nat → Nat → List Nat
  | [], _, _ => []
  | c :: rest, tid, i =>
    if c = tid then i :: scanTail rest tid (i + 1)
    else scanTail rest tid (i + 1)

/-- The scan of `DictionaryCodec::findMatchesSIMD`
(`dictionary_codec.cpp:283-313`): `num_chunks = n / 32` chunks of four
8-lane groups, then a scalar loop over the remaining
`[32*num_chunks, n)` indices. -/
def findMatchesSIMDScan (col : List Nat) (tid : Nat) : List Nat :=
  let n := col.length
  let nc := n / 32
  ((List.range nc).flatMap (fun chunk =>
    (List.range 4).flatMap (fun i =>
      groupHits col tid (chunk * 32 + i * 8) n))) ++
  scanTail (col.drop (nc * 32)) tid (nc * 32)

/-- Model of `DictionaryCodec::findMatchesSIMD(target)`
(`dictionary_codec.cpp:270-316`). -/
def findMatchesSIMD (s : CodecState) (target : String) : List Nat :=
  match lookupStr s.dict target with
  | none => []
  | some tid => findMatchesSIMDScan s.col tid

/-- The dictionary-entry test of both prefix searches
(`dictionary_codec.cpp:332-333`, `389-390`):
`str.length() >= p.length() && str.compare(0, p.length(), p) == 0`, i.e.
the byte sequence `p` is a prefix of `str`. -/
def matchesPrefixOf (p str : String) : Bool :=
  p.data.isPrefixOf str.data

/-- The single-pass bucket fill of `prefixSearchSIMD`
(`dictionary_codec.cpp:354-360`): for row `i`, when `col[i]` is among the
candidate ids, append `i` to that id's bucket. -/
def buildIdBuckets (b : Nat → List Nat) (ids : List Nat) :
    List Nat → Nat → (Nat → List Nat)
  | [], _ => b
  | c :: rest, i =>
    let b2 := if c ∈ ids then
        (fun j => if j = c then b j ++ [i] else b j)
      else b
    buildIdBuckets b2 ids rest (i + 1)

/-- The result-building loop of `prefixSearchSIMD`
(`dictionary_codec.cpp:363-365`): emit `(str, id_results[id])` for every
candidate, moving the bucket out (a second use of the same id would see an
empty, moved-from bucket). -/
def emitSIMD (b : Nat → List Nat) :
    List (String × Nat) → List (String × List Nat)
  | [] => []
  | e :: rest =>
    (e.1, b e.2) :: emitSIMD (fun j => if j = e.2 then [] else b j) rest

/-- Model of `DictionaryCodec::prefixSearchSIMD(p)`
(`dictionary_codec.cpp:318-369`): empty pattern gives an empty result;
otherwise collect the dictionary entries whose value starts with `p`, scan
the column once building one bucket per candidate id, and emit the pairs in
candidate order (buckets may be empty). -/
def prefixSearchSIMD (s : CodecState) (p : String) :
    List (String × List Nat) :=
  if p.data.isEmpty then []
  else
    let cands := s.dict.filter (fun e => matchesPrefixOf p e.1)
    if cands.isEmpty then []
    else
      let ids := cands.map Prod.snd
      emitSIMD (buildIdBuckets (fun _ => []) ids s.col 0) cands

/-- The second pass of `baselinePrefixSearch`
(`dictionary_codec.cpp:397-406`): for row `i`, bounds-check
`col[i] < reverse.size()`, look the value up through `reverse`, and when it
starts with `p` append `i` to the bucket keyed by that string. -/
def buildStrBuckets (b : String → List Nat) (reverse : List String)
    (p : String) : List Nat → Nat → (String → List Nat)
  | [], _ => b
  | c :: rest, i =>
    let b2 := match reverse.get? c with
      | some str =>
        if matchesPrefixOf p str then
          (fun t => if t = str then b t ++ [i] else b t)
        else b
      | none => b
    buildStrBuckets b2 reverse p rest (i + 1)

/-- The result-building loop of `baselinePrefixSearch`
(`dictionary_codec.cpp:410-415`): for every matching string in discovery
order, emit `(str, bucket)` only when the bucket is nonempty (the emptiness
test precedes the move). -/
def emitBaseline (b : String → List Nat) :
    List String → List (String × List Nat)
  | [] => []
  | str :: rest =>
    if (b str).isEmpty then emitBaseline b rest
    else (str, b str) :: emitBaseline (fun t => if t = str then [] else b t)
      rest

/-- Model of `DictionaryCodec::baselinePrefixSearch(p)`
(`dictionary_codec.cpp:372-418`). -/
def baselinePrefixSearch (s : CodecState) (p : String) :
    List (String × List Nat) :=
  if p.data.isEmpty then []
  else
    let matchingStrings :=
      (s.dict.filter (fun e => matchesPrefixOf p e.1)).map Prod.fst
    emitBaseline (buildStrBuckets (fun _ => []) s.reverse p s.col 0)
      matchingStrings

/-- A zstd block as `compressChunk` produces it
(`dictionary_codec.cpp:545-558`): lossless, so the model keeps the encoded
words; the frame byte size is `4 * words.length`. -/
structure CompressedBlock where
  words : List Nat
  deriving Repr, DecidableEq

/-- Errors of the persistence path (`dictionary_codec.cpp:553`, `565`). -/
inductive CodecError where
  | compressionError
  deriving Repr, DecidableEq

/-- The on-disk layout written by `DictionaryCodec::saveToFile`
(`dictionary_codec.cpp:570-591`): the dictionary entry count, the
`(value, code)` pairs in map iteration order (insertion order in this
model), then the zstd-compressed code column. -/
structure SavedFile where
  entries : List (String × Nat)
  comp : CompressedBlock
  deriving Repr, DecidableEq

/-- Model of `DictionaryCodec::saveToFile(filename)`. -/
def saveToFile (s : CodecState) : SavedFile :=
  ⟨s.dict, ⟨s.col⟩⟩

/-- Model of `DictionaryCodec::loadFromFile(filename)`
(`dictionary_codec.cpp:593-629`): clear and rebuild the dictionary from the
stored pairs (`dictionary[str] = id`; `reverse_dictionary.push_back(str)`
in file order, regardless of the stored codes); then size the decompression
buffer as `encoded_data.size() * sizeof(uint32_t)` — the size of the
*current* column, settled before any stored size is consulted — `resize` to
that same length, and decompress.  `ZSTD_decompress` fails when the frame
content exceeds the destination capacity; on success any slots past the
frame keep their previous codes. -/
def loadFromFile (s : CodecState) (f : SavedFile) :
    Except CodecError CodecState :=
  let dict := f.entries.foldl (fun d e => mapInsert d e.1 e.2) []
  let reverse := f.entries.map Prod.fst
  if 4 * s.col.length < 4 * f.comp.words.length then
    Except.error CodecError.compressionError
  else
    Except.ok { dict := dict, reverse := reverse,
                col := f.comp.words ++ s.col.drop f.comp.words.length,
                orig := s.orig }

instance : DecidableEq (Except CodecError CodecState) := fun x y =>
  match x, y with
  | .error a, .error b =>
    match decEq a b with
    | .isTrue h => .isTrue (h ▸ rfl)
    | .isFalse h => .isFalse (fun hh => h (Except.error.inj hh))
  | .ok a, .ok b =>
    match decEq a b with
    | .isTrue h => .isTrue (h ▸ rfl)
    | .isFalse h => .isFalse (fun hh => h (Except.ok.inj hh))
  | .error _, .ok _ => .isFalse (fun hh => Except.noConfusion hh)
  | .ok _, .error _ => .isFalse (fun hh => Except.noConfusion hh)

/-- The element indices `findMatches` reads from the code array
(`dictionary_codec.cpp:247-248`): each of the `⌈n/8⌉` iterations of
`for (i = 0; i < n; i += 8)` loads the eight 32-bit words at
`&encoded_data[i]`. -/
def findMatchesReads (n : Nat) : List Nat :=
  (List.range ((n + 7) / 8)).flatMap (fun g =>
    (List.range 8).map (fun l => 8 * g + l))

/-- The element indices `findMatchesSIMD` reads from the code array
(`dictionary_codec.cpp:287-313`): four 8-word loads per 32-word chunk for
the `n / 32` full chunks, then one scalar read per remaining index. -/
def findMatchesSIMDReads (n : Nat) : List Nat :=
  let nc := n / 32
  ((List.range nc).flatMap (fun chunk =>
    (List.range 4).flatMap (fun i =>
      (List.range 8).map (fun l => chunk * 32 + i * 8 + l)))) ++
  (List.range (n - nc * 32)).map (fun k => nc * 32 + k)

/-- The dictionary bijectivity invariant as the specification states it:
forward map and reverse vector have equal size, every forward binding
`(v, c)` satisfies `reverse[c] = v`, the codes are exactly
`{0, …, N−1}` (in assignment order), and no value is bound twice. -/
def DictInv (s : CodecState) : Prop :=
  s.dict.length = s.reverse.length ∧
  (∀ e ∈ s.dict, s.reverse.get? e.2 = some e.1) ∧
  s.dict.map Prod.snd = List.range s.dict.length ∧
  (s.dict.map Prod.fst).Nodup

instance (s : CodecState) : Decidable (DictInv s) := by
  unfold DictInv; infer_instance

/-- Dictionary of `4294967296` entries (`strOfNat i ↦ i`), used to witness
the 32-bit code truncation. -/
def strOfNat (n : Nat) : String :=
  String.mk (List.replicate n 'a')

/-- Dictionary list `mkDict n`: binds `strOfNat i ↦ i` for `i < n` in
insertion order. -/
def mkDict : Nat → List (String × Nat)
  | 0 => []
  | n + 1 => mkDict n ++ [(strOfNat n, n)]

/-- A codec state holding `2^32` distinct dictionary entries, as an encode
of `2^32` distinct values would leave it. -/
def bigState : CodecState :=
  ⟨mkDict 4294967296, (List.range 4294967296).map strOfNat, [0], []⟩

/-- The dictionary only ever grows by appending fresh bindings; the
operations of the codec extend it. -/
def DictExtends (s s2 : CodecState) : Prop :=
  ∃ l, s2.dict = s.dict ++ l

/-- Specification-level characterization of the second pass of
`baselinePrefixSearch`: the rows whose code dereferences through `rev` to
exactly the value `t`. -/
def strScan (rev : List String) : List Nat → String → Nat → List Nat
  | [], _, _ => []
  | c :: rest, t, i =>
    if rev.get? c = some t then i :: strScan rev rest t (i + 1)
    else strScan rev rest t (i + 1)

/-- A 102-line input whose first 100 lines are distinct, line 100 is the
fresh value `x` and line 101 repeats line 0.  Processing it single-threaded
flushes the first 100 misses as a full batch at line 99, buffers `x` at
line 100, and then hits the dictionary at line 101, whose `continue`
bypasses the final flush — the pending `x` is discarded. -/
def contentC3 : String :=
  String.intercalate "\n"
    (((List.range 100).map (fun i => "s" ++ toString i)) ++ ["x", "s0"])

/-- The codec state after single-threaded encoding of `contentC3`. -/
def stateC3 : CodecState := encodeFile initState contentC3 1

/-! ## Helper lemmas -/

theorem lookupStr_append_of_some {d1 d2 : List (String × Nat)} {k : String}
    {c : Nat} (h : lookupStr d1 k = some c) :
    lookupStr (d1 ++ d2) k = some c := by
  induction d1 with
  | nil => simp [lookupStr] at h
  | cons e rest ih =>
    simp only [lookupStr, List.cons_append] at h ⊢
    split at h
    · rename_i he
      simpa [he] using h
    · rename_i he
      rw [if_neg he]
      exact ih h

theorem lookupStr_append_of_none {d1 d2 : List (String × Nat)} {k : String}
    (h : lookupStr d1 k = none) :
    lookupStr (d1 ++ d2) k = lookupStr d2 k := by
  induction d1 with
  | nil => simp
  | cons e rest ih =>
    simp only [lookupStr, List.cons_append] at h ⊢
    split at h
    · simp at h
    · rename_i he
      rw [if_neg he]
      exact ih h

theorem lookupStr_eq_none_iff {d : List (String × Nat)} {k : String} :
    lookupStr d k = none ↔ k ∉ d.map Prod.fst := by
  induction d with
  | nil => simp [lookupStr]
  | cons e rest ih =>
    simp only [lookupStr, List.map_cons, List.mem_cons]
    split
    · simp_all
    · simp_all [eq_comm]

theorem scanTail_ge {col : List Nat} {tid i x : Nat}
    (h : x ∈ scanTail col tid i) : i ≤ x := by
  induction col generalizing i with
  | nil => simp [scanTail] at h
  | cons c rest ih =>
    simp only [scanTail] at h
    split at h
    · rcases List.mem_cons.mp h with rfl | h2
      · exact Nat.le_refl x
      · exact Nat.le_of_succ_le (ih h2)
    · exact Nat.le_of_succ_le (ih h)

theorem scanTail_pairwise (col : List Nat) (tid i : Nat) :
    List.Pairwise (· < ·) (scanTail col tid i) := by
  induction col generalizing i with
  | nil => simp [scanTail]
  | cons c rest ih =>
    simp only [scanTail]
    split
    · exact List.pairwise_cons.mpr
        ⟨fun x hx => Nat.lt_of_succ_le (scanTail_ge hx), ih (i + 1)⟩
    · exact ih (i + 1)

/-! ## C1: save/load round trip -/

/-- C1: the claimed round trip fails.  Encoding the one-line file `a`,
saving, and loading into a fresh codec does not reproduce the state: the
load sizes its decompression buffer from the fresh codec's empty
`encoded_data`, so the decompression of the one-word column reports an
error instead of restoring the column. -/
theorem C1_roundtrip_fails_on_fresh_codec :
    loadFromFile initState (saveToFile (encodeFile initState "a\n" 1)) =
      Except.error CodecError.compressionError := by decide

/-! ## C2: exact-match parity of the three implementations -/

/-- C2: after encoding the one-line file `a`, the two code-domain searches
find row 0 but `baselineFind` finds nothing, because no code path ever
populates `original_data`; the three implementations do not agree. -/
theorem C2_baselineFind_disagrees :
    baselineFind (encodeFile initState "a\n" 1) "a" = [] ∧
    findMatches (encodeFile initState "a\n" 1) "a" = [0] ∧
    findMatchesSIMD (encodeFile initState "a\n" 1) "a" = [0] := by decide

/-! ## C6: bounds of the SIMD scans -/

/-- C6 counterexample: with a column of 3 codes, the first 8-wide load of
`findMatches` reads element index 3 (and up to 7), which is not below the
column length — the claim that no SIMD exact-match scan reads at or past
the length is false for `findMatches`. -/
theorem C6_counterexample_findMatches_reads_past_end :
    3 ∈ findMatchesReads 3 ∧ ¬ 3 < 3 := by decide

/-- C6 amended: `findMatchesSIMD` does process the sub-chunk tail with
scalar reads, so every element index it reads is below the column
length. -/
theorem C6_findMatchesSIMD_reads_in_bounds (n j : Nat)
    (h : j ∈ findMatchesSIMDReads n) : j < n := by
  simp only [findMatchesSIMDReads, List.mem_append, List.mem_flatMap,
    List.mem_map, List.mem_range] at h
  rcases h with ⟨chunk, hchunk, i, hi, l, hl, rfl⟩ | ⟨k, hk, rfl⟩
  · have hdiv := Nat.div_mul_le_self n 32
    omega
  · omega

/-- Witness for C6: in a 33-long column the SIMD scan reads index 0, and
the theorem places it below 33. -/
theorem C6_witness : 0 ∈ findMatchesSIMDReads 33 ∧ 0 < 33 :=
  ⟨by decide, C6_findMatchesSIMD_reads_in_bounds 33 0 (by decide)⟩

/-! ## C8: empty pattern convention of the prefix searches -/

/-- C8: on every codec state, both prefix searches return the empty result
for the empty pattern. -/
theorem C8_empty_pattern_empty_result (s : CodecState) :
    prefixSearchSIMD s "" = [] ∧ baselinePrefixSearch s "" = [] :=
  ⟨rfl, rfl⟩

/-! ## C9: queries on absent values -/

/-- C9: when the target value is absent from the dictionary, both
code-domain exact-match searches return the empty sequence.  (They are
`const` functions of the state in the source and pure functions here, so
the codec state is unchanged by construction; `baselineFind` does not
consult the dictionary at all and scans the never-populated
`original_data`.) -/
theorem C9_absent_value_empty_result (s : CodecState) (v : String)
    (h : lookupStr s.dict v = none) :
    findMatches s v = [] ∧ findMatchesSIMD s v = [] := by
  constructor <;> simp [findMatches, findMatchesSIMD, h]

/-- Witness for C9: the value `z` is absent from the fresh codec and both
searches return the empty sequence. -/
theorem C9_witness :
    lookupStr initState.dict "z" = none ∧
    (findMatches initState "z" = [] ∧ findMatchesSIMD initState "z" = []) :=
  ⟨rfl, C9_absent_value_empty_result initState "z" rfl⟩

/-! ## C3: round-trip column integrity of encode -/

set_option maxRecDepth 10000 in
/-- C3: the claim fails on `contentC3`.  The file has 102 lines and line
100 is `x`, but after a single-threaded encode the pending batch holding
`x` is discarded (the final iteration is a dictionary hit whose `continue`
skips the flush), so row 100 keeps the zero-initialised code 0, decodes to
`s0` instead of `x`, and `x` never enters the dictionary. -/
theorem C3_line_not_ingested :
    (fileLines contentC3).length = 102 ∧
    (fileLines contentC3).getD 100 "" = "x" ∧
    stateC3.col.length = 102 ∧
    stateC3.reverse.getD (stateC3.col.getD 100 99) "" = "s0" ∧
    lookupStr stateC3.dict "x" = none := by decide

/-! ## C5: behaviour at the 2^32 dictionary capacity -/

theorem mkDict_length (n : Nat) : (mkDict n).length = n := by
  induction n with
  | zero => rfl
  | succ m ih => simp [mkDict, ih]

theorem strOfNat_inj {a b : Nat} (h : strOfNat a = strOfNat b) : a = b := by
  have hd : List.replicate a 'a' = List.replicate b 'a' :=
    congrArg String.data h
  simpa using congrArg List.length hd

theorem strOfNat_ne_x (i : Nat) : strOfNat i ≠ "x" := by
  intro h
  have hd : List.replicate i 'a' = ['x'] := congrArg String.data h
  have hl : i = 1 := by simpa using congrArg List.length hd
  subst hl
  exact absurd hd (by decide)

theorem lookupStr_mkDict_none {n : Nat} {k : String}
    (h : ∀ i, i < n → strOfNat i ≠ k) : lookupStr (mkDict n) k = none := by
  induction n with
  | zero => rfl
  | succ m ih =>
    rw [mkDict,
      lookupStr_append_of_none (ih (fun i hi => h i (Nat.lt_succ_of_lt hi)))]
    simp [lookupStr, h m (Nat.lt_succ_self m)]

theorem lookupStr_mkDict_self {n i : Nat} (h : i < n) :
    lookupStr (mkDict n) (strOfNat i) = some i := by
  induction n with
  | zero => omega
  | succ m ih =>
    rw [mkDict]
    rcases Nat.lt_succ_iff_lt_or_eq.mp h with h2 | rfl
    · exact lookupStr_append_of_some (ih h2)
    · rw [lookupStr_append_of_none (lookupStr_mkDict_none
        (fun j hj heq => (Nat.ne_of_lt hj) (strOfNat_inj heq)))]
      simp [lookupStr]

/-- The insertion step of `encodeSingleThread` on a single fresh value:
the batch is flushed (the value is the last of the chunk) and the new
binding receives `dictionary.size()` truncated to 32 bits. -/
theorem encodeSingleThread_single_fresh (s : CodecState) (v : String)
    (start : Nat) (h : lookupStr s.dict v = none) :
    (encodeSingleThread s [v] start).dict =
      s.dict ++ [(v, s.dict.length % 4294967296)] := by
  simp [encodeSingleThread, encodeLoop, flushPending, h]

/-- C5 amended: there is no capacity check and no failure path; inserting
a fresh value always assigns `dictionary.size() % 2^32`, silently wrapping
once the dictionary reaches 2^32 entries. -/
theorem C5_fresh_insert_assigns_wrapped_code (s : CodecState) (v : String)
    (start : Nat) (h : lookupStr s.dict v = none) :
    lookupStr (encodeSingleThread s [v] start).dict v =
      some (s.dict.length % 4294967296) := by
  rw [encodeSingleThread_single_fresh s v start h,
    lookupStr_append_of_none h]
  simp [lookupStr]

/-- Witness for C5: inserting a fresh value into a one-entry dictionary
assigns code `1 % 2^32`. -/
theorem C5_witness :
    lookupStr (CodecState.mk [("q", 0)] ["q"] [] []).dict "r" = none ∧
    lookupStr (encodeSingleThread
        (CodecState.mk [("q", 0)] ["q"] [] []) ["r"] 0).dict "r" =
      some (1 % 4294967296) :=
  ⟨rfl, C5_fresh_insert_assigns_wrapped_code
    (CodecState.mk [("q", 0)] ["q"] [] []) "r" 0 rfl⟩

/-- C5 counterexample: at 2^32 dictionary entries the encode of the fresh
value `x` completes without any error and binds `x` to code
`2^32 % 2^32 = 0` — the code already held by the value `strOfNat 0` — so
the operation assigns a wrapped code instead of failing. -/
theorem C5_counterexample_no_dictionary_full :
    lookupStr (encodeSingleThread bigState ["x"] 0).dict "x" = some 0 ∧
    lookupStr (encodeSingleThread bigState ["x"] 0).dict (strOfNat 0) =
      some 0 ∧
    strOfNat 0 ≠ "x" := by
  have hnone : lookupStr (mkDict 4294967296) "x" = none :=
    lookupStr_mkDict_none (fun i _ => strOfNat_ne_x i)
  simp only [bigState]
  have hd := encodeSingleThread_single_fresh
    (CodecState.mk (mkDict 4294967296)
      ((List.range 4294967296).map strOfNat) [0] []) "x" 0 hnone
  dsimp only at hd
  rw [mkDict_length, Nat.mod_self] at hd
  refine ⟨?_, ?_, by decide⟩
  · rw [hd, lookupStr_append_of_none hnone]
    simp [lookupStr]
  · rw [hd]
    exact lookupStr_append_of_some
      (@lookupStr_mkDict_self 4294967296 0 (by norm_num))

/-! ## Dictionary extension: the encoder only appends fresh bindings -/

theorem dictExtends_refl (s : CodecState) : DictExtends s s :=
  ⟨[], by simp⟩

theorem dictExtends_trans {a b c : CodecState} (h1 : DictExtends a b)
    (h2 : DictExtends b c) : DictExtends a c := by
  obtain ⟨l1, hl1⟩ := h1
  obtain ⟨l2, hl2⟩ := h2
  exact ⟨l1 ++ l2, by rw [hl2, hl1, List.append_assoc]⟩

theorem foldl_dictExtends {α : Type} (f : CodecState → α → CodecState)
    (hf : ∀ st x, DictExtends st (f st x)) :
    ∀ (l : List α) (s : CodecState), DictExtends s (l.foldl f s) := by
  intro l
  induction l with
  | nil => intro s; exact dictExtends_refl s
  | cons x rest ih =>
    intro s
    exact dictExtends_trans (hf s x) (ih (f s x))

theorem flushPending_extends (pending : List (String × Nat))
    (s : CodecState) : DictExtends s (flushPending s pending) := by
  refine foldl_dictExtends _ (fun st pr => ?_) pending s
  cases h : lookupStr st.dict pr.1
  · exact ⟨[(pr.1, st.dict.length % 4294967296)], by simp [h]⟩
  · exact ⟨[], by simp [h]⟩

theorem encodeLoop_extends (chunk : List String) :
    ∀ (s : CodecState) (idx : Nat) (pending : List (String × Nat)),
      DictExtends s (encodeLoop s idx pending chunk) := by
  induction chunk with
  | nil => intro s idx pending; exact dictExtends_refl s
  | cons str rest ih =>
    intro s idx pending
    simp only [encodeLoop]
    cases h : lookupStr s.dict str
    · simp only []
      split
      · exact dictExtends_trans (flushPending_extends _ s) (ih _ _ _)
      · exact ih _ _ _
    · exact dictExtends_trans ⟨[], by simp⟩ (ih _ _ _)

theorem encodeSingleThread_extends (s : CodecState) (chunk : List String)
    (startIdx : Nat) : DictExtends s (encodeSingleThread s chunk startIdx) :=
  encodeLoop_extends chunk s startIdx []

theorem runThreads_extends (s : CodecState) (chunk : List String)
    (chunkStart T : Nat) : DictExtends s (runThreads s chunk chunkStart T) :=
  foldl_dictExtends _ (fun st _t => encodeSingleThread_extends st _ _) _ s

theorem encodeChunksAux_extends (fuel : Nat) :
    ∀ (s : CodecState) (lines : List String) (pos T : Nat),
      DictExtends s (encodeChunksAux s lines pos T fuel) := by
  induction fuel with
  | zero => intro s lines pos T; exact dictExtends_refl s
  | succ f ih =>
    intro s lines pos T
    cases lines with
    | nil => exact dictExtends_refl s
    | cons l rest =>
      simp only [encodeChunksAux]
      split
      · exact dictExtends_refl s
      · exact dictExtends_trans (runThreads_extends s _ pos T) (ih _ _ _ _)

theorem encodeFile_extends (s : CodecState) (content : String) (T : Nat) :
    DictExtends s (encodeFile s content T) :=
  dictExtends_trans ⟨[], by simp⟩
    (encodeChunksAux_extends _ _ (fileLines content) 0 T)

/-! ## C10: repeated encode preserves the dictionary -/

/-- C10: `encodeFile` never clears existing state — every pre-existing
value-to-code binding survives any further encode unchanged, and the
dictionary size is monotonically non-decreasing, so a later encode reuses
the codes assigned by an earlier one. -/
theorem C10_encode_preserves_dictionary (s : CodecState) (content : String)
    (T : Nat) :
    (∀ v c, lookupStr s.dict v = some c →
      lookupStr (encodeFile s content T).dict v = some c) ∧
    s.dict.length ≤ (encodeFile s content T).dict.length := by
  obtain ⟨l, hl⟩ := encodeFile_extends s content T
  constructor
  · intro v c h
    rw [hl]
    exact lookupStr_append_of_some h
  · rw [hl]
    simp

/-- Witness for C10: the binding of `a` to code 0 survives a second encode
of a file containing only `b`. -/
theorem C10_witness :
    lookupStr (CodecState.mk [("a", 0)] ["a"] [0] []).dict "a" = some 0 ∧
    lookupStr
      (encodeFile (CodecState.mk [("a", 0)] ["a"] [0] []) "b\n" 1).dict
      "a" = some 0 :=
  ⟨rfl,
    (C10_encode_preserves_dictionary
      (CodecState.mk [("a", 0)] ["a"] [0] []) "b\n" 1).1 "a" 0 rfl⟩

/-! ## C4: dictionary bijectivity -/

theorem dictInv_col (s : CodecState) (c : List Nat) :
    DictInv { s with col := c } ↔ DictInv s := by
  simp [DictInv]

theorem dictInv_append {s : CodecState} (v : String) (c : List Nat)
    (o : List String) (hinv : DictInv s)
    (hfresh : lookupStr s.dict v = none)
    (hlt : s.dict.length < 4294967296) :
    DictInv (CodecState.mk (s.dict ++ [(v, s.dict.length % 4294967296)])
      (s.reverse ++ [v]) c o) := by
  obtain ⟨hlen, hget, hsnd, hfst⟩ := hinv
  have hmod : s.dict.length % 4294967296 = s.dict.length :=
    Nat.mod_eq_of_lt hlt
  rw [hmod]
  refine ⟨by simp [hlen], ?_, ?_, ?_⟩
  · intro e he
    rcases List.mem_append.mp he with he2 | he2
    · have h2 : e.2 < s.reverse.length := by
        have : e.2 ∈ s.dict.map Prod.snd := List.mem_map_of_mem _ he2
        rw [hsnd] at this
        rw [← hlen]
        exact List.mem_range.mp this
      rw [List.get?_append h2]
      exact hget e he2
    · rcases List.mem_singleton.mp he2 with rfl
      rw [hlen]
      exact List.get?_concat_length s.reverse v
  · simp only [List.map_append, List.length_append, List.map_cons,
      List.map_nil, List.length_cons, List.length_nil]
    rw [hsnd]
    have : s.dict.length + (0 + 1) = s.dict.length + 1 := by omega
    rw [this, List.range_succ]
  · simp only [List.map_append, List.map_cons, List.map_nil]
    refine List.nodup_append.mpr ⟨hfst, List.nodup_singleton v, ?_⟩
    intro a ha
    simp only [List.mem_singleton]
    rintro rfl
    exact (lookupStr_eq_none_iff.mp hfresh) ha

theorem foldl_dictInv {α : Type} (f : CodecState → α → CodecState)
    (hext : ∀ st x, DictExtends st (f st x))
    (hstep : ∀ st x, DictInv st → (f st x).dict.length ≤ 4294967296 →
      DictInv (f st x)) :
    ∀ (l : List α) (s : CodecState), DictInv s →
      (l.foldl f s).dict.length ≤ 4294967296 → DictInv (l.foldl f s) := by
  intro l
  induction l with
  | nil => intro s h _; exact h
  | cons x rest ih =>
    intro s h hb
    simp only [List.foldl_cons] at hb ⊢
    have hmono : (f s x).dict.length ≤ (rest.foldl f (f s x)).dict.length := by
      obtain ⟨l2, hl2⟩ := foldl_dictExtends f hext rest (f s x)
      rw [hl2]
      simp
    exact ih (f s x) (hstep s x h (le_trans hmono hb)) hb

theorem flushPending_inv (pending : List (String × Nat)) (s : CodecState)
    (hinv : DictInv s)
    (hb : (flushPending s pending).dict.length ≤ 4294967296) :
    DictInv (flushPending s pending) := by
  refine foldl_dictInv _ (fun st pr => ?_) (fun st pr hst hlen => ?_)
    pending s hinv hb
  · cases h : lookupStr st.dict pr.1
    · exact ⟨[(pr.1, st.dict.length % 4294967296)], by simp [h]⟩
    · exact ⟨[], by simp [h]⟩
  · cases h : lookupStr st.dict pr.1
    · simp only [h] at hlen ⊢
      have : st.dict.length < 4294967296 := by
        simp at hlen
        omega
      exact dictInv_append pr.1 _ _ hst h this
    · simp only [h]
      exact (dictInv_col st _).mpr hst

theorem encodeLoop_inv (chunk : List String) :
    ∀ (s : CodecState) (idx : Nat) (pending : List (String × Nat)),
      DictInv s → (encodeLoop s idx pending chunk).dict.length ≤ 4294967296 →
      DictInv (encodeLoop s idx pending chunk) := by
  induction chunk with
  | nil => intro s idx pending h _; exact h
  | cons str rest ih =>
    intro s idx pending hinv hb
    simp only [encodeLoop] at hb ⊢
    cases h : lookupStr s.dict str
    · simp only [h] at hb ⊢
      by_cases hcond : 100 ≤ (pending ++ [(str, idx)]).length ∨ rest = []
      · rw [if_pos hcond] at hb ⊢
        refine ih _ _ _ ?_ hb
        have hmono : (flushPending s (pending ++ [(str, idx)])).dict.length ≤
            (encodeLoop (flushPending s (pending ++ [(str, idx)])) (idx + 1)
              [] rest).dict.length := by
          obtain ⟨l2, hl2⟩ := encodeLoop_extends rest
            (flushPending s (pending ++ [(str, idx)])) (idx + 1) []
          rw [hl2]
          simp
        exact flushPending_inv _ s hinv (le_trans hmono hb)
      · rw [if_neg hcond] at hb ⊢
        exact ih _ _ _ hinv hb
    · simp only [h] at hb ⊢
      exact ih _ _ _ ((dictInv_col s _).mpr hinv) hb

theorem encodeSingleThread_inv (s : CodecState) (chunk : List String)
    (startIdx : Nat) (hinv : DictInv s)
    (hb : (encodeSingleThread s chunk startIdx).dict.length ≤ 4294967296) :
    DictInv (encodeSingleThread s chunk startIdx) :=
  encodeLoop_inv chunk s startIdx [] hinv hb

theorem runThreads_inv (s : CodecState) (chunk : List String)
    (chunkStart T : Nat) (hinv : DictInv s)
    (hb : (runThreads s chunk chunkStart T).dict.length ≤ 4294967296) :
    DictInv (runThreads s chunk chunkStart T) :=
  foldl_dictInv _ (fun st _t => encodeSingleThread_extends st _ _)
    (fun st _t hst hlen => encodeSingleThread_inv st _ _ hst hlen)
    (List.range T) s hinv hb

theorem encodeChunksAux_inv (fuel : Nat) :
    ∀ (s : CodecState) (lines : List String) (pos T : Nat), DictInv s →
      (encodeChunksAux s lines pos T fuel).dict.length ≤ 4294967296 →
      DictInv (encodeChunksAux s lines pos T fuel) := by
  induction fuel with
  | zero => intro s lines pos T h _; exact h
  | succ f ih =>
    intro s lines pos T hinv hb
    cases lines with
    | nil => exact hinv
    | cons l rest =>
      simp only [encodeChunksAux] at hb ⊢
      by_cases hcond : (readChunk (l :: rest) 0 []).1 = []
      · rw [if_pos hcond] at hb ⊢
        exact hinv
      · rw [if_neg hcond] at hb ⊢
        refine ih _ _ _ _ ?_ hb
        have hmono :
            (runThreads s (readChunk (l :: rest) 0 []).1 pos T).dict.length ≤
            (encodeChunksAux
              (runThreads s (readChunk (l :: rest) 0 []).1 pos T)
              (readChunk (l :: rest) 0 []).2
              (pos + (readChunk (l :: rest) 0 []).1.length) T
              f).dict.length := by
          obtain ⟨l2, hl2⟩ := encodeChunksAux_extends f
            (runThreads s (readChunk (l :: rest) 0 []).1 pos T)
            (readChunk (l :: rest) 0 []).2
            (pos + (readChunk (l :: rest) 0 []).1.length) T
          rw [hl2]
          simp
        exact runThreads_inv s (readChunk (l :: rest) 0 []).1 pos T hinv
          (le_trans hmono hb)

theorem encodeFile_inv (s : CodecState) (content : String) (T : Nat)
    (hinv : DictInv s)
    (hb : (encodeFile s content T).dict.length ≤ 4294967296) :
    DictInv (encodeFile s content T) := by
  unfold encodeFile encodeChunks at hb ⊢
  exact encodeChunksAux_inv _ _ _ 0 T ((dictInv_col s _).mpr hinv) hb

theorem foldl_mapInsert_fresh :
    ∀ (l : List (String × Nat)) (d : List (String × Nat)),
      (∀ e ∈ l, lookupStr d e.1 = none) → (l.map Prod.fst).Nodup →
      l.foldl (fun d2 e => mapInsert d2 e.1 e.2) d = d ++ l := by
  intro l
  induction l with
  | nil => intro d _ _; simp
  | cons e rest ih =>
    intro d hfresh hnodup
    simp only [List.foldl_cons]
    have he : lookupStr d e.1 = none := hfresh e (List.mem_cons_self e rest)
    have hmi : mapInsert d e.1 e.2 = d ++ [e] := by
      simp [mapInsert, he]
    simp only [List.map_cons, List.nodup_cons] at hnodup
    have hfresh2 : ∀ e2 ∈ rest, lookupStr (d ++ [e]) e2.1 = none := by
      intro e2 he2
      rw [lookupStr_append_of_none (hfresh e2 (List.mem_cons_of_mem e he2))]
      simp only [lookupStr]
      rw [if_neg]
      intro heq
      exact hnodup.1 (heq ▸ List.mem_map_of_mem Prod.fst he2)
    rw [hmi, ih (d ++ [e]) hfresh2 hnodup.2, List.append_assoc,
      List.singleton_append]

theorem loadFromFile_ok_inv (s s2 : CodecState) (f : SavedFile)
    (hsnd : f.entries.map Prod.snd = List.range f.entries.length)
    (hfst : (f.entries.map Prod.fst).Nodup)
    (hok : loadFromFile s f = Except.ok s2) : DictInv s2 := by
  unfold loadFromFile at hok
  split at hok
  · exact absurd hok (by simp)
  · injection hok with hok
    subst hok
    have hdict : f.entries.foldl (fun d e => mapInsert d e.1 e.2) [] =
        f.entries := by
      have h0 := foldl_mapInsert_fresh f.entries []
        (fun e _ => rfl) hfst
      simpa using h0
    refine ⟨by simp [hdict], ?_, by simp only [hdict]; exact hsnd,
      by simp only [hdict]; exact hfst⟩
    intro e he
    simp only [hdict] at he ⊢
    obtain ⟨i, hi⟩ := List.mem_iff_get?.mp he
    have hilt : i < f.entries.length := by
      rcases List.get?_eq_some.mp hi with ⟨hlt, _⟩
      exact hlt
    have h1 : (f.entries.map Prod.snd).get? i = some e.2 := by
      rw [List.get?_map, hi]
      rfl
    rw [hsnd, List.get?_range hilt] at h1
    have h2 : e.2 = i := by
      injection h1 with h1
      omega
    rw [h2, List.get?_map, hi]
    rfl

/-- C4 amended: dictionary bijectivity (equal sizes, `reverse[c] = v` for
every forward binding `(v, c)`, codes exactly `{0, …, N−1}`, no duplicate
value) is preserved by `encodeFile` as long as the dictionary stays within
2^32 entries, and by `loadFromFile` provided the file lists its entries in
code order with codes exactly `0, …, N−1` and distinct values; an
arbitrary (even permuted) entry order breaks it, since load rebuilds
`reverse_dictionary` in file order while trusting the stored codes. -/
theorem C4_bijectivity_encode_and_ordered_load :
    (∀ (s : CodecState) (content : String) (T : Nat), DictInv s →
      (encodeFile s content T).dict.length ≤ 4294967296 →
      DictInv (encodeFile s content T)) ∧
    (∀ (s s2 : CodecState) (f : SavedFile),
      f.entries.map Prod.snd = List.range f.entries.length →
      (f.entries.map Prod.fst).Nodup →
      loadFromFile s f = Except.ok s2 → DictInv s2) :=
  ⟨encodeFile_inv,
    fun s s2 f hsnd hfst hok => loadFromFile_ok_inv s s2 f hsnd hfst hok⟩

/-- Witness for C4: bijectivity holds after encoding a three-line file and
after loading a code-ordered two-entry file. -/
theorem C4_witness :
    DictInv (encodeFile initState "apple\nbanana\napple\n" 1) ∧
    DictInv (CodecState.mk [("a", 0), ("b", 1)] ["a", "b"] [] []) := by
  constructor
  · exact C4_bijectivity_encode_and_ordered_load.1 initState
      "apple\nbanana\napple\n" 1 (by decide) (by decide)
  · exact C4_bijectivity_encode_and_ordered_load.2 initState
      (CodecState.mk [("a", 0), ("b", 1)] ["a", "b"] [] [])
      ⟨[("a", 0), ("b", 1)], ⟨[]⟩⟩ (by decide) (by decide)
      (by decide)

/-- C4 counterexample: loading a file whose entries are not listed in code
order succeeds and yields a state where the forward map binds `a` to code
1 while `reverse[1]` is `b` — the bijectivity invariant is not preserved
by load. -/
theorem C4_counterexample_load_breaks_bijectivity :
    loadFromFile initState ⟨[("a", 1), ("b", 0)], ⟨[]⟩⟩ =
      Except.ok (CodecState.mk [("a", 1), ("b", 0)] ["a", "b"] [] []) ∧
    lookupStr [("a", 1), ("b", 0)] "a" = some 1 ∧
    ["a", "b"].get? 1 = some "b" ∧
    ¬ DictInv (CodecState.mk [("a", 1), ("b", 0)] ["a", "b"] [] []) :=
  ⟨by decide, by decide, by decide, by decide⟩

/-! ## C7: prefix-search parity -/

theorem buildIdBuckets_apply :
    ∀ (col : List Nat) (b : Nat → List Nat) (ids : List Nat) (i j : Nat),
      j ∈ ids → buildIdBuckets b ids col i j = b j ++ scanTail col j i := by
  intro col
  induction col with
  | nil => intro b ids i j _; simp [buildIdBuckets, scanTail]
  | cons c rest ih =>
    intro b ids i j hj
    simp only [buildIdBuckets, scanTail]
    by_cases hc : c ∈ ids
    · rw [if_pos hc, ih _ ids (i + 1) j hj]
      by_cases hjc : j = c
      · subst hjc
        rw [if_pos rfl, if_pos rfl]
        simp
      · rw [if_neg hjc, if_neg (fun h => hjc h.symm)]
    · rw [if_neg hc, ih b ids (i + 1) j hj]
      have hcj : ¬ c = j := fun h => hc (h ▸ hj)
      rw [if_neg hcj]

theorem emitSIMD_congr :
    ∀ (l : List (String × Nat)) (b1 b2 : Nat → List Nat),
      (∀ e ∈ l, b1 e.2 = b2 e.2) → emitSIMD b1 l = emitSIMD b2 l := by
  intro l
  induction l with
  | nil => intro b1 b2 _; rfl
  | cons e rest ih =>
    intro b1 b2 h
    simp only [emitSIMD, h e (List.mem_cons_self e rest)]
    congr 1
    apply ih
    intro e2 he2
    by_cases he : e2.2 = e.2
    · simp [he]
    · simp [he, h e2 (List.mem_cons_of_mem e he2)]

theorem emitSIMD_eq_map :
    ∀ (l : List (String × Nat)) (b : Nat → List Nat),
      (l.map Prod.snd).Nodup →
      emitSIMD b l = l.map (fun e => (e.1, b e.2)) := by
  intro l
  induction l with
  | nil => intro b _; rfl
  | cons e rest ih =>
    intro b h
    simp only [List.map_cons, List.nodup_cons] at h
    simp only [emitSIMD, List.map_cons]
    congr 1
    rw [emitSIMD_congr rest _ b ?_, ih b h.2]
    intro e2 he2
    rw [if_neg]
    intro heq
    exact h.1 (heq ▸ List.mem_map_of_mem Prod.snd he2)

theorem buildStrBuckets_apply :
    ∀ (col : List Nat) (b : String → List Nat) (rev : List String)
      (p t : String) (i : Nat), matchesPrefixOf p t = true →
      buildStrBuckets b rev p col i t = b t ++ strScan rev col t i := by
  intro col
  induction col with
  | nil => intro b rev p t i _; simp [buildStrBuckets, strScan]
  | cons c rest ih =>
    intro b rev p t i ht
    simp only [buildStrBuckets, strScan]
    cases hg : rev.get? c with
    | none =>
      dsimp only
      rw [if_neg (by simp [hg]), ih b rev p t (i + 1) ht]
    | some str =>
      dsimp only
      by_cases hps : matchesPrefixOf p str = true
      · rw [if_pos hps]
        by_cases hts : str = t
        · subst hts
          rw [if_pos rfl, ih _ rev p str (i + 1) ht]
          rw [if_pos rfl]
          simp
        · rw [if_neg (fun h => hts (Option.some.inj h)),
            ih _ rev p t (i + 1) ht]
          rw [if_neg (fun h => hts h.symm)]
      · rw [if_neg hps, ih b rev p t (i + 1) ht,
          if_neg (fun h => hps (by rw [Option.some.inj h]; exact ht))]

theorem emitBaseline_congr :
    ∀ (l : List String) (b1 b2 : String → List Nat),
      (∀ x ∈ l, b1 x = b2 x) → emitBaseline b1 l = emitBaseline b2 l := by
  intro l
  induction l with
  | nil => intro b1 b2 _; rfl
  | cons str rest ih =>
    intro b1 b2 h
    simp only [emitBaseline, h str (List.mem_cons_self str rest)]
    by_cases he : (b2 str).isEmpty = true
    · rw [if_pos he, if_pos he]
      exact ih b1 b2 (fun x hx => h x (List.mem_cons_of_mem str hx))
    · rw [if_neg he, if_neg he]
      congr 1
      apply ih
      intro x hx
      by_cases hxs : x = str
      · simp [hxs]
      · simp [hxs, h x (List.mem_cons_of_mem str hx)]

theorem emitBaseline_eq_filter :
    ∀ (l : List String) (b : String → List Nat), l.Nodup →
      emitBaseline b l =
        (l.map (fun str => (str, b str))).filter (fun e => !e.2.isEmpty) := by
  intro l
  induction l with
  | nil => intro b _; rfl
  | cons str rest ih =>
    intro b h
    simp only [List.nodup_cons] at h
    simp only [emitBaseline, List.map_cons, List.filter_cons]
    by_cases he : (b str).isEmpty = true
    · rw [if_pos he, if_neg (by simp [he]), ih b h.2]
    · rw [if_neg he, if_pos (by simp [he])]
      congr 1
      rw [emitBaseline_congr rest _ b ?_, ih b h.2]
      intro x hx
      rw [if_neg]
      intro heq
      exact h.1 (heq ▸ hx)

theorem strScan_eq_scanTail :
    ∀ (col : List Nat) (rev : List String) (t : String) (c i : Nat),
      (∀ x, rev.get? x = some t ↔ x = c) →
      strScan rev col t i = scanTail col c i := by
  intro col
  induction col with
  | nil => intro rev t c i _; rfl
  | cons d rest ih =>
    intro rev t c i hiff
    simp only [strScan, scanTail]
    by_cases hd : d = c
    · rw [if_pos ((hiff d).mpr hd), if_pos hd, ih rev t c (i + 1) hiff]
    · rw [if_neg (fun h => hd ((hiff d).mp h)), if_neg hd,
        ih rev t c (i + 1) hiff]

theorem dictInv_reverse_eq (s : CodecState) (h : DictInv s) :
    s.reverse = s.dict.map Prod.fst := by
  obtain ⟨hlen, hget, hsnd, _⟩ := h
  apply List.ext_get?
  intro n
  by_cases hn : n < s.dict.length
  · obtain ⟨e, he⟩ : ∃ e, s.dict.get? n = some e := by
      cases hg : s.dict.get? n with
      | none =>
        rw [List.get?_eq_none] at hg
        omega
      | some e => exact ⟨e, rfl⟩
    have hsn : e.2 = n := by
      have h1 : (s.dict.map Prod.snd).get? n = some e.2 := by
        rw [List.get?_map, he]
        rfl
      rw [hsnd, List.get?_range hn] at h1
      injection h1 with h1
      omega
    have hmem : e ∈ s.dict := List.get?_mem he
    have h2 := hget e hmem
    rw [hsn] at h2
    rw [h2, List.get?_map, he]
    rfl
  · rw [List.get?_eq_none.mpr (by omega : s.reverse.length ≤ n),
      List.get?_eq_none.mpr (by simp; omega)]

theorem prefixSearchSIMD_char (s : CodecState) (p : String)
    (hp : ¬ p.data.isEmpty = true)
    (hnodup : ((s.dict.filter
      (fun e => matchesPrefixOf p e.1)).map Prod.snd).Nodup) :
    prefixSearchSIMD s p =
      (s.dict.filter (fun e => matchesPrefixOf p e.1)).map
        (fun e => (e.1, scanTail s.col e.2 0)) := by
  simp only [prefixSearchSIMD]
  rw [if_neg hp]
  by_cases hc :
      (s.dict.filter (fun e => matchesPrefixOf p e.1)).isEmpty = true
  · rw [if_pos hc]
    rw [List.isEmpty_iff] at hc
    rw [hc]
    rfl
  · rw [if_neg hc]
    rw [emitSIMD_eq_map _ _ hnodup]
    apply List.map_congr_left
    intro e he
    rw [buildIdBuckets_apply s.col (fun _ => []) _ 0 e.2
      (List.mem_map_of_mem Prod.snd he)]
    simp

theorem baselinePrefixSearch_char (s : CodecState) (p : String)
    (hp : ¬ p.data.isEmpty = true) (hinv : DictInv s) :
    baselinePrefixSearch s p =
      ((s.dict.filter (fun e => matchesPrefixOf p e.1)).map
        (fun e => (e.1, scanTail s.col e.2 0))).filter
        (fun e => !e.2.isEmpty) := by
  obtain ⟨hlen, hget, hsnd, hfst⟩ := hinv
  have hrev : s.reverse = s.dict.map Prod.fst :=
    dictInv_reverse_eq s ⟨hlen, hget, hsnd, hfst⟩
  have hfst_nodup : ((s.dict.filter
      (fun e => matchesPrefixOf p e.1)).map Prod.fst).Nodup :=
    List.Nodup.sublist (List.Sublist.map _ (List.filter_sublist s.dict)) hfst
  simp only [baselinePrefixSearch]
  rw [if_neg hp]
  rw [emitBaseline_eq_filter _ _ hfst_nodup]
  congr 1
  rw [List.map_map]
  apply List.map_congr_left
  intro e he
  simp only [Function.comp]
  have hpre : matchesPrefixOf p e.1 = true := (List.mem_filter.mp he).2
  rw [buildStrBuckets_apply s.col (fun _ => []) s.reverse p e.1 0 hpre]
  simp only [List.nil_append]
  congr 1
  apply strScan_eq_scanTail
  intro x
  constructor
  · intro hx
    have hxe : s.reverse.get? e.2 = some e.1 :=
      hget e (List.mem_filter.mp he).1
    have hxlt : x < s.reverse.length := (List.get?_eq_some.mp hx).1
    have hnodup_rev : s.reverse.Nodup := by rw [hrev]; exact hfst
    exact List.get?_inj hxlt hnodup_rev (hx.trans hxe.symm)
  · rintro rfl
    exact hget e (List.mem_filter.mp he).1

/-- C7 amended: on every codec state satisfying dictionary bijectivity,
the baseline prefix search equals the SIMD prefix search with its
empty-row-list pairs dropped (so the two agree exactly when every matching
dictionary code occurs in the column, as after a single encode from a
fresh codec), and every row list either search returns is strictly
ascending. -/
theorem C7_prefix_parity (s : CodecState) (p : String) (hinv : DictInv s) :
    baselinePrefixSearch s p =
      (prefixSearchSIMD s p).filter (fun e => !e.2.isEmpty) ∧
    (∀ e ∈ prefixSearchSIMD s p, List.Pairwise (· < ·) e.2) ∧
    (∀ e ∈ baselinePrefixSearch s p, List.Pairwise (· < ·) e.2) := by
  by_cases hp : p.data.isEmpty = true
  · refine ⟨?_, ?_, ?_⟩
    · simp [baselinePrefixSearch, prefixSearchSIMD, hp]
    · intro e he
      simp [prefixSearchSIMD, hp] at he
    · intro e he
      simp [baselinePrefixSearch, hp] at he
  · have hids_nodup : ((s.dict.filter
        (fun e => matchesPrefixOf p e.1)).map Prod.snd).Nodup := by
      apply List.Nodup.sublist
        (List.Sublist.map _ (List.filter_sublist s.dict))
      rw [hinv.2.2.1]
      exact List.nodup_range _
    have hS := prefixSearchSIMD_char s p hp hids_nodup
    have hB := baselinePrefixSearch_char s p hp hinv
    refine ⟨by rw [hB, hS], ?_, ?_⟩
    · intro e he
      rw [hS] at he
      obtain ⟨e0, _, rfl⟩ := List.mem_map.mp he
      exact scanTail_pairwise _ _ _
    · intro e he
      rw [hB] at he
      obtain ⟨e0, _, rfl⟩ := List.mem_map.mp (List.mem_of_mem_filter he)
      exact scanTail_pairwise _ _ _

/-- Witness for C7: on a bijective two-entry state the baseline result is
the SIMD result restricted to nonempty row lists. -/
theorem C7_witness :
    DictInv (CodecState.mk [("ab", 0), ("b", 1)] ["ab", "b"] [0, 1, 0] []) ∧
    baselinePrefixSearch
        (CodecState.mk [("ab", 0), ("b", 1)] ["ab", "b"] [0, 1, 0] []) "a" =
      (prefixSearchSIMD
        (CodecState.mk [("ab", 0), ("b", 1)] ["ab", "b"] [0, 1, 0] [])
        "a").filter (fun e => !e.2.isEmpty) :=
  ⟨by decide,
    (C7_prefix_parity
      (CodecState.mk [("ab", 0), ("b", 1)] ["ab", "b"] [0, 1, 0] [])
      "a" (by decide)).1⟩

/-- C7 counterexample: after a second encode the dictionary still holds
`b` but the column no longer does; the SIMD prefix search returns the pair
`(b, [])` while the baseline search returns nothing, so the two do not
return the same set of pairs. -/
theorem C7_counterexample_empty_bucket_pair :
    prefixSearchSIMD
        (encodeFile (encodeFile initState "a\nb" 1) "a\na" 1) "b" =
      [("b", [])] ∧
    baselinePrefixSearch
        (encodeFile (encodeFile initState "a\nb" 1) "a\na" 1) "b" = [] :=
  ⟨by decide, by decide⟩
